import Mathlib

/-!
Shallow embedding of the OpenType layout core of the fontations repository:
the read-side feature-closure traversal (read-fonts, layout/closure.rs) and the
write-side layout builders (write-fonts, layout/builders.rs), together with
theorems checking the specification's claims against these definitions.

Glyph ids (GlyphId16), tags, class ids and u16 counters are modelled as Nat,
with explicit bounds or mod-2^16 arithmetic at the places where the Rust code
performs 16-bit arithmetic or casts.  Rust IntSet / HashSet values are modelled
as Finset; Vec as List; BTreeMap as a key-sorted association list.
-/

namespace Fontations

/-- A 4-byte OpenType tag (script, language or feature); equality is exact,
so an abstract identifier suffices. -/
abbrev Tag := Nat

/-! ## Write side: write-fonts layout builders (builders.rs) -/

/-- Embeds `CoverageTableBuilder` (builders.rs): a glyph vector whose
invariant is that it is always sorted (and deduplicated). -/
structure CoverageTableBuilder where
  glyphs : List Nat
  deriving DecidableEq, Repr

/-- Core of `CoverageTableBuilder::add`: on the sorted glyph list, either
locate an existing glyph or insert it at its sorted position, returning the
updated list and the glyph's index.  This is the purely functional meaning of
`binary_search` + `Vec::insert` on a sorted, deduplicated vector. -/
def addGlyph : List Nat → Nat → List Nat × Nat
  | [], g => ([g], 0)
  | h :: t, g =>
    if h < g then
      let r := addGlyph t g
      (h :: r.1, r.2 + 1)
    else if g < h then (g :: h :: t, 0)
    else (h :: t, 0)

/-- Embeds `CoverageTableBuilder::add`: returns the updated builder and the
coverage index of the glyph (in Rust the index is returned as `u16` via
`ix.try_into().unwrap()`; here the index is a Nat and the no-panic claim is the
statement that it is always below 2^16). -/
def CoverageTableBuilder.add (b : CoverageTableBuilder) (g : Nat) :
    CoverageTableBuilder × Nat :=
  let r := addGlyph b.glyphs g
  (⟨r.1⟩, r.2)

/-- Removal of consecutive duplicates, the meaning of Rust `Vec::dedup`. -/
def dedupConsec {α : Type} [DecidableEq α] : List α → List α
  | [] => []
  | [a] => [a]
  | a :: b :: t => if a = b then dedupConsec (b :: t) else a :: dedupConsec (b :: t)

/-- Embeds `CoverageTableBuilder::from_glyphs`: sort the input vector, then
remove consecutive duplicates (`sort_unstable` + `dedup`). -/
def CoverageTableBuilder.from_glyphs (l : List Nat) : CoverageTableBuilder :=
  ⟨dedupConsec (l.insertionSort (· ≤ ·))⟩

/-- Folding `CoverageTableBuilder::add` over a list of glyphs, starting from
the default (empty) builder. -/
def addAllGlyphs (l : List Nat) : CoverageTableBuilder :=
  l.foldl (fun b g => (b.add g).1) ⟨[]⟩

/-- Embeds `LookupBuilder<T>` (builders.rs): lookup-wide flags, an optional
mark-filtering-set id, and the ordered subtable builders. -/
structure LookupBuilder (T : Type) where
  flags : Nat
  mark_set : Option Nat
  subtables : List T
  deriving Repr

/-- Embeds the `#[derive(Default)]` impl for `LookupBuilder<T>`: default flags,
no mark set, and an empty (`Vec::default()`) subtable vector. -/
def LookupBuilder.defaultValue (T : Type) : LookupBuilder T :=
  ⟨0, none, []⟩

/-- Embeds `LookupBuilder::new`: stores flags and mark set and one default
subtable (`vec![Default::default()]`). -/
def LookupBuilder.new {T : Type} [Inhabited T] (flags : Nat)
    (mark_set : Option Nat) : LookupBuilder T :=
  ⟨flags, mark_set, [default]⟩

/-- Embeds `LookupBuilder::force_subtable_break`: push one fresh default
subtable onto the subtable vector. -/
def LookupBuilder.force_subtable_break {T : Type} [Inhabited T]
    (b : LookupBuilder T) : LookupBuilder T :=
  ⟨b.flags, b.mark_set, b.subtables ++ [default]⟩

/-- Opaque model of a compiled `Device` table (its contents are irrelevant to
the builder logic). -/
abbrev Device := Nat

/-- Opaque model of a `VariationRegion`. -/
abbrev VariationRegion := Nat

/-- Embeds `DeviceOrDeltas` (builders.rs): a literal device table, a list of
per-region deltas, or nothing. -/
inductive DeviceOrDeltas where
  | device (d : Device)
  | deltas (l : List (VariationRegion × Int))
  | none
  deriving DecidableEq, Repr

/-- Embeds `VariationStoreBuilder` as far as the claims need it: the list of
registered delta sets, in registration order. -/
structure VariationStoreBuilder where
  delta_sets : List (List (VariationRegion × Int))
  deriving DecidableEq, Repr

/-- Modelled from the spec: `VariationStoreBuilder::add_deltas` lives in
ivs_builder.rs, which is not part of the sources; per the spec each submission
of a delta list yields an opaque temporary handle from the accumulator.  The
handle is the registration position; final indices are unobservable here. -/
def VariationStoreBuilder.add_deltas (s : VariationStoreBuilder)
    (ds : List (VariationRegion × Int)) : Nat × VariationStoreBuilder :=
  (s.delta_sets.length, ⟨s.delta_sets ++ [ds]⟩)

/-- Embeds `PendingVariationIndex`: a placeholder holding the accumulator's
temporary delta-set handle. -/
structure PendingVariationIndex where
  delta_set_id : Nat
  deriving DecidableEq, Repr

/-- Embeds the `DeviceOrVariationIndex` output enum: a literal device table or
a pending variation-index placeholder. -/
inductive DeviceOrVariationIndex where
  | device (d : Device)
  | pendingVariationIndex (p : PendingVariationIndex)
  deriving DecidableEq, Repr

/-- Embeds `DeviceOrDeltas::build`: `None` stays `None`, a device passes
through, a delta list is registered with the variation-store accumulator and
becomes a `PendingVariationIndex` placeholder. -/
def DeviceOrDeltas.build (d : DeviceOrDeltas) (s : VariationStoreBuilder) :
    Option DeviceOrVariationIndex × VariationStoreBuilder :=
  match d with
  | .device dev => (some (.device dev), s)
  | .deltas ds =>
    let r := s.add_deltas ds
    (some (.pendingVariationIndex ⟨r.1⟩), r.2)
  | .none => (Option.none, s)

/-- Embeds the semantic `ClassDefBuilder` (builders.rs): the committed classes
(a `HashSet<IntSet<GlyphId16>>`), the union of all assigned glyphs, and the
class-0-usable flag. -/
structure ClassDefBuilder where
  classes : Finset (Finset Nat)
  all_glyphs : Finset Nat
  use_class_0 : Bool
  deriving DecidableEq

/-- Embeds `ClassDefBuilder::new` / the derived `Default`. -/
def ClassDefBuilder.new : ClassDefBuilder := ⟨∅, ∅, false⟩

/-- Embeds `ClassDefBuilder::new_using_class_0`. -/
def ClassDefBuilder.new_using_class_0 : ClassDefBuilder := ⟨∅, ∅, true⟩

/-- Embeds `ClassDefBuilder::can_add`: the class was already committed
verbatim, or none of its glyphs is already assigned. -/
def ClassDefBuilder.can_add (b : ClassDefBuilder) (cls : Finset Nat) : Prop :=
  cls ∈ b.classes ∨ ∀ g ∈ cls, g ∉ b.all_glyphs

instance (b : ClassDefBuilder) (cls : Finset Nat) :
    Decidable (b.can_add cls) := by
  unfold ClassDefBuilder.can_add; infer_instance

/-- Embeds `ClassDefBuilder::checked_add`: if `can_add` holds, extend the
assigned-glyph set with the class members and insert the class, returning
`true`; otherwise leave the builder untouched and return `false`. -/
def ClassDefBuilder.checked_add (b : ClassDefBuilder) (cls : Finset Nat) :
    ClassDefBuilder × Bool :=
  if b.can_add cls then
    (⟨insert cls b.classes, b.all_glyphs ∪ cls, b.use_class_0⟩, true)
  else (b, false)

/-- The sort key's second component in `build_with_mapping`:
`cls.iter().next().unwrap_or_default()`, i.e. the smallest member of the class
(IntSet iterates in ascending order), or glyph id 0 for an empty class. -/
def minGlyph (c : Finset Nat) : Nat :=
  (Finset.min c).untop' 0

/-- The comparator used by `sort_unstable_by_key` in `build_with_mapping`:
key `(Reverse(cls.len()), min member)`, i.e. class size descending and then
minimum member glyph id ascending. -/
def classOrder (a b : Finset Nat) : Prop :=
  b.card < a.card ∨ (a.card = b.card ∧ minGlyph a ≤ minGlyph b)

instance : DecidableRel classOrder := by
  unfold classOrder; infer_instance

instance : IsTotal (Finset Nat) classOrder := by
  constructor
  intro a b
  unfold classOrder
  rcases Nat.lt_trichotomy a.card b.card with h | h | h
  · exact Or.inr (Or.inl h)
  · rcases Nat.le_total (minGlyph a) (minGlyph b) with h' | h'
    · exact Or.inl (Or.inr ⟨h, h'⟩)
    · exact Or.inr (Or.inr ⟨h.symm, h'⟩)
  · exact Or.inl (Or.inl h)

instance : IsTrans (Finset Nat) classOrder := by
  constructor
  intro a b c hab hbc
  unfold classOrder at *
  rcases hab with h1 | ⟨h1, h1'⟩ <;> rcases hbc with h2 | ⟨h2, h2'⟩
  · exact Or.inl (h2.trans h1)
  · exact Or.inl (h2 ▸ h1)
  · exact Or.inl (h1.symm ▸ h2)
  · exact Or.inr ⟨h1.trans h2, h1'.trans h2'⟩

/-- Embeds `ClassDefBuilder::build_with_mapping`, which consumes the builder's
`HashSet` of classes.  `HashSet` iteration order is unspecified, so the
enumeration of the committed classes is taken as a parameter `l` (a duplicate
free list); the function sorts it by `classOrder`, removes consecutive
duplicates (`Vec::dedup`), and pairs each class with
`i as u16 + add_one` where `add_one = u16::from(!use_class_0)`: the position
is truncated to u16 and the addition wraps in u16, both rendered by mod 2^16,
yielding the class-to-id mapping as an association list. -/
def build_with_mapping (l : List (Finset Nat)) (use_class_0 : Bool) :
    List (Finset Nat × Nat) :=
  let sorted := dedupConsec (l.insertionSort classOrder)
  let add_one := if use_class_0 then 0 else 1
  (sorted.zip (List.range sorted.length)).map
    (fun p => (p.1, (p.2 % 2 ^ 16 + add_one) % 2 ^ 16))

/-- Embeds the output `ClassDef` enum: either a format-1 table (start glyph
plus a dense class-value array) or a format-2 table (a list of
(start, end, class) range records). -/
inductive ClassDef where
  | format1 (start_glyph_id : Nat) (class_value_array : List Nat)
  | format2 (class_range_records : List (Nat × Nat × Nat))
  deriving DecidableEq, Repr

/-- Helper for `iter_class_ranges`: `start`, `gend`, `cls` describe the run
being accumulated (the iterator's `prev` state); emit it when the next item
does not extend it.  `are_sequential` (layout module, not among the sources)
is modelled from the spec: two glyph ids are sequential when the second is the
first plus one. -/
def classRangesAux (start gend cls : Nat) :
    List (Nat × Nat) → List (Nat × Nat × Nat)
  | [] => [(start, gend, cls)]
  | (g, c) :: t =>
    if gend + 1 = g ∧ cls = c then classRangesAux start g cls t
    else (start, gend, cls) :: classRangesAux g g c t

/-- Embeds `iter_class_ranges` (builders.rs): group the sorted
glyph-to-class items into maximal runs of consecutive glyph ids sharing a
class, emitting one (start, end, class) record per run. -/
def iter_class_ranges : List (Nat × Nat) → List (Nat × Nat × Nat)
  | [] => []
  | (g, c) :: t => classRangesAux g g c t

/-- Specification-side count of the maximal runs of consecutive glyph ids
sharing a class in a sorted item list: a new run starts at the head and at
every item that does not extend its predecessor. -/
def runCount : List (Nat × Nat) → Nat
  | [] => 0
  | [_] => 1
  | a :: b :: t => (if a.1 + 1 = b.1 ∧ a.2 = b.2 then 0 else 1) + runCount (b :: t)

/-- Embeds `ClassDefBuilderImpl::prefer_format_1`: an empty item map is never
format 1; otherwise compare `6 + 2 * (last - first + 1)` (format 1) against
`4 + 6 * number_of_ranges` (format 2) and prefer format 1 exactly when it is
strictly smaller.  The items are the `BTreeMap` contents in ascending key
order. -/
def prefer_format_1 (items : List (Nat × Nat)) : Bool :=
  match items with
  | [] => false
  | (g0, _) :: _ =>
    let first := g0
    let last := (items.getLast?.map Prod.fst).getD 0
    let format1_array_len := (last - first) + 1
    let len_format1 := 3 * 2 + format1_array_len * 2
    let len_format2 := 2 * 2 + (iter_class_ranges items).length * (3 * 2)
    len_format1 < len_format2

/-- Embeds `ClassDefBuilderImpl::build`: when format 1 is preferred, emit the
dense class array from `first..=last` (absent glyphs get class 0); otherwise
emit the format-2 range records. -/
def buildClassDefImpl (items : List (Nat × Nat)) : ClassDef :=
  if prefer_format_1 items then
    let first := ((items.head?.map Prod.fst)).getD 0
    let last := (items.getLast?.map Prod.fst).getD 0
    ClassDef.format1 first
      (((List.range ((last - first) + 1)).map
        (fun k => ((items.lookup (first + k)).getD 0))))
  else
    ClassDef.format2 (iter_class_ranges items)

/-! ## Read side: feature-closure traversal (read-fonts layout/closure.rs) -/

/-- Ceiling on visited scripts (`MAX_SCRIPTS`). -/
def MAX_SCRIPTS : Nat := 500

/-- Ceiling on visited LangSys tables (`MAX_LANGSYS`). -/
def MAX_LANGSYS : Nat := 2000

/-- Ceiling on cumulative feature-index contributions (`MAX_FEATURE_INDICES`). -/
def MAX_FEATURE_INDICES : Nat := 1500

/-- Read-side view of a LangSys table: its physical byte address (the address
of its `offset_data`), the required-feature index (sentinel 0xFFFF = none) and
the ordered list of feature indices.  The accessor fields come from the
generated layout view (not among the sources) and follow the spec's data
model. -/
structure LangSysT where
  offset : Nat
  requiredFeatureIndex : Nat
  featureIndices : List Nat
  deriving DecidableEq, Repr

/-- Read-side view of a Script table: an optional default LangSys and the
ordered tagged LangSys records. -/
structure ScriptT where
  defaultLangSys : Option LangSysT
  langSysRecords : List (Tag × LangSysT)
  deriving DecidableEq, Repr

/-- Read-side view of a ScriptList: the ordered tagged script records. -/
structure ScriptListT where
  scriptRecords : List (Tag × ScriptT)
  deriving DecidableEq, Repr

/-- Embeds `CollectFeaturesContext` (closure.rs): the three u16 counters, the
two visited-offset sets, the output feature-index set (a caller-supplied
`&mut IntSet<u16>`), the optional precomputed feature-index filter, the
feature list (index to tag) and the table origin address. -/
structure CollectFeaturesContext where
  script_count : Nat
  langsys_count : Nat
  feature_index_count : Nat
  visited_script : Finset Nat
  visited_langsys : Finset Nat
  feature_indices : Finset Nat
  feature_indices_filter : Option (Finset Nat)
  feature_list : List Tag
  table_head : Nat
  deriving DecidableEq

/-- The set built by `compute_feature_filter`'s loop: every feature-list
position whose record's tag is in the requested feature set, the position
inserted as a u16 (`idx as u16`, hence mod 2^16). -/
def computeFilterSet (features : Finset Tag) (flist : List Tag) : Finset Nat :=
  ((flist.enum.filter (fun p => p.2 ∈ features)).map (fun p => p.1 % 2 ^ 16)).toFinset

/-- Embeds `CollectFeaturesContext::compute_feature_filter`: with no requested
feature set the filter stays `None`; otherwise it becomes the set of matching
feature-list positions. -/
def CollectFeaturesContext.compute_feature_filter (c : CollectFeaturesContext)
    (features : Option (Finset Tag)) : CollectFeaturesContext :=
  match features with
  | Option.none => c
  | some fs => { c with feature_indices_filter := some (computeFilterSet fs c.feature_list) }

/-- Embeds `CollectFeaturesContext::new`: zero counters, empty visited sets,
the caller-supplied output set, no filter, then `compute_feature_filter`. -/
def CollectFeaturesContext.new (features : Option (Finset Tag)) (table_head : Nat)
    (feature_list : List Tag) (feature_indices : Finset Nat) :
    CollectFeaturesContext :=
  CollectFeaturesContext.compute_feature_filter
    { script_count := 0, langsys_count := 0, feature_index_count := 0,
      visited_script := ∅, visited_langsys := ∅,
      feature_indices := feature_indices,
      feature_indices_filter := Option.none,
      feature_list := feature_list, table_head := table_head }
    features

/-- Embeds `CollectFeaturesContext::langsys_visited`: above the LangSys
ceiling everything counts as visited; otherwise bump the counter, key the
visited set on the LangSys's byte offset relative to the table origin
(`(ptr - table_head) as u32`; subtable data never precedes the origin), and
report and record whether that offset was seen before.  The tag of the record
that led here plays no part. -/
def CollectFeaturesContext.langsys_visited (c : CollectFeaturesContext)
    (langsys : LangSysT) : Bool × CollectFeaturesContext :=
  if MAX_LANGSYS < c.langsys_count then (true, c)
  else
    let c1 := { c with langsys_count := c.langsys_count + 1 }
    let delta := (langsys.offset - c.table_head) % 2 ^ 32
    if delta ∈ c1.visited_langsys then (true, c1)
    else (false, { c1 with visited_langsys := insert delta c1.visited_langsys })

/-- Embeds `CollectFeaturesContext::feature_indices_limit_exceeded`: u16
`overflowing_add` of the cumulative counter and `count`; on overflow clamp to
the ceiling and report exceeded, otherwise store the sum and report whether it
passed the ceiling. -/
def CollectFeaturesContext.feature_indices_limit_exceeded
    (c : CollectFeaturesContext) (count : Nat) : Bool × CollectFeaturesContext :=
  let sum := c.feature_index_count + count
  if 2 ^ 16 ≤ sum then (true, { c with feature_index_count := MAX_FEATURE_INDICES })
  else (decide (MAX_FEATURE_INDICES < sum), { c with feature_index_count := sum })

/-- The body of `LangSys::collect_features` past the visited check: with no
feature filter, add the required-feature index (when not the 0xFFFF sentinel
and the quota allows one more) and then the listed feature indices (when the
quota allows their count); with a filter present the source's `else` branch
is empty, so nothing is contributed.  The undefined `count` and `iter` of the
work-in-progress source are modelled from the spec as the number of listed
feature indices and the listed feature indices themselves. -/
def LangSysT.featurePhase (l : LangSysT) (c : CollectFeaturesContext) :
    CollectFeaturesContext :=
  match c.feature_indices_filter with
  | some _ => c
  | Option.none =>
    let c1 :=
      if l.requiredFeatureIndex ≠ 0xFFFF then
        let e := c.feature_indices_limit_exceeded 1
        if e.1 then e.2
        else { e.2 with feature_indices := insert l.requiredFeatureIndex e.2.feature_indices }
      else c
    let e := c1.feature_indices_limit_exceeded l.featureIndices.length
    if e.1 then e.2
    else { e.2 with feature_indices := e.2.feature_indices ∪ l.featureIndices.toFinset }

/-- Embeds `LangSys::collect_features`: return at once when `langsys_visited`
reports the LangSys (by offset) as already seen or over quota, otherwise run
the contribution phase on the updated context. -/
def LangSysT.collect_features (l : LangSysT) (c : CollectFeaturesContext) :
    CollectFeaturesContext :=
  let v := c.langsys_visited l
  if v.1 then v.2
  else l.featurePhase v.2

/-- Modelled from the spec: `Script::lang_sys_index_for_tag` comes from the
generated layout view (not among the sources); it finds the position of the
first LangSys record with the given tag, if any. -/
def ScriptT.lang_sys_index_for_tag (s : ScriptT) (t : Tag) : Option Nat :=
  s.langSysRecords.findIdx? (fun r => r.1 == t)

/-- Embeds `Script::collect_features`: with no language filter, visit the
default LangSys first and then every LangSys record in file order; with a
filter, visit the records whose tags are found, in filter order, skipping
unknown tags. -/
def ScriptT.collect_features (s : ScriptT) (c : CollectFeaturesContext)
    (languages : Option (List Tag)) : CollectFeaturesContext :=
  match languages with
  | Option.none =>
    let c1 := match s.defaultLangSys with
      | some d => d.collect_features c
      | Option.none => c
    s.langSysRecords.foldl (fun acc r => r.2.collect_features acc) c1
  | some langs =>
    langs.foldl (fun acc tag =>
      match s.lang_sys_index_for_tag tag with
      | Option.none => acc
      | some idx =>
        match s.langSysRecords[idx]? with
        | some r => r.2.collect_features acc
        | Option.none => acc) c

/-- Modelled from the spec: `ScriptList::index_for_tag` comes from the
generated layout view (not among the sources); it finds the position of the
first script record with the given tag, if any. -/
def ScriptListT.index_for_tag (sl : ScriptListT) (t : Tag) : Option Nat :=
  sl.scriptRecords.findIdx? (fun r => r.1 == t)

/-- Embeds `ScriptList::collect_features`.  The source builds `out` as an
empty set, never inserts into it, and returns it; collected feature indices
only ever reach the context's `feature_indices` set.  The inner
`script.collect_features()` calls of the work-in-progress source pass no
arguments (which does not type-check); they are modelled from the spec as the
evident recursive calls carrying the context and the language filter.  With
no script filter every script record is visited in file order; with a filter,
requested tags are looked up in filter order and unknown tags are skipped. -/
def ScriptListT.collect_features (sl : ScriptListT) (c : CollectFeaturesContext)
    (scripts languages : Option (List Tag)) (_features : Option (Finset Tag)) :
    Finset Tag × CollectFeaturesContext :=
  let out : Finset Tag := ∅
  match scripts with
  | Option.none =>
    (out, sl.scriptRecords.foldl (fun acc r => r.2.collect_features acc languages) c)
  | some sc =>
    (out, sc.foldl (fun acc tag =>
      match sl.index_for_tag tag with
      | Option.none => acc
      | some idx =>
        match sl.scriptRecords[idx]? with
        | some r => r.2.collect_features acc languages
        | Option.none => acc) c)

/-- A committable family of 65537 distinct classes: the 65536 one-glyph
classes of every 16-bit glyph id, followed by the empty class (which
`can_add` accepts vacuously).  On it the u16 id arithmetic of
`build_with_mapping` wraps: sorted order puts the singletons first and the
empty class at position 65536, whose id `(65536 as u16) + 1` collapses to 1,
the id already given to the first singleton. -/
def wrapClasses : List (Finset Nat) :=
  (List.range (2 ^ 16)).map (fun i => ({i} : Finset Nat)) ++ [∅]

/-! ## Theorems for the claims -/

/-- C3: `ClassDefBuilder::checked_add` is total and returns a boolean; when
the class is neither identical to an already-committed class nor disjoint from
the assigned glyphs (the negation of `can_add`), it returns `false` and the
builder — committed classes, assigned-glyph set and flag alike — is exactly
unchanged; when it returns `true`, every member glyph of the class is marked
assigned. -/
theorem checked_add_atomic (b : ClassDefBuilder) (cls : Finset Nat) :
    (¬ b.can_add cls → b.checked_add cls = (b, false)) ∧
    ((b.checked_add cls).2 = true →
      ∀ g ∈ cls, g ∈ (b.checked_add cls).1.all_glyphs) := by
  constructor
  · intro h
    simp [ClassDefBuilder.checked_add, h]
  · intro h g hg
    by_cases hc : b.can_add cls
    · simp [ClassDefBuilder.checked_add, hc]
      exact Or.inr hg
    · simp [ClassDefBuilder.checked_add, hc] at h

/-- Witness for C3: after committing the class 1234, the overlapping class
15678 is rejected and the builder is returned unchanged. -/
theorem checked_add_atomic_witness :
    ¬ (ClassDefBuilder.new.checked_add {1, 2, 3, 4}).1.can_add {1, 5, 6, 7} ∧
    (ClassDefBuilder.new.checked_add {1, 2, 3, 4}).1.checked_add {1, 5, 6, 7}
      = ((ClassDefBuilder.new.checked_add {1, 2, 3, 4}).1, false) :=
  ⟨by decide, (checked_add_atomic _ _).1 (by decide)⟩

/-- C8 counterexample: the derived `Default` impl for `LookupBuilder` yields a
value with an empty subtable vector, so the claim that every `LookupBuilder`
value has at least one subtable entry is false. -/
theorem lookup_default_value_has_no_subtable :
    ¬ 1 ≤ (LookupBuilder.defaultValue Nat).subtables.length := by
  decide

/-- C8 (amended): `LookupBuilder::new` constructs exactly one default
subtable, and `force_subtable_break` appends one fresh default subtable to the
existing ones, so it never shrinks the subtable list; values derived from
`Default` (empty subtable vector) are the exception to the at-least-one
invariant. -/
theorem lookup_new_one_subtable_break_appends {T : Type} [Inhabited T]
    (flags : Nat) (mark_set : Option Nat) (b : LookupBuilder T) :
    (LookupBuilder.new (T := T) flags mark_set).subtables = [default] ∧
    b.force_subtable_break.subtables = b.subtables ++ [default] ∧
    b.force_subtable_break.subtables.length = b.subtables.length + 1 := by
  refine ⟨rfl, rfl, ?_⟩
  simp [LookupBuilder.force_subtable_break]

/-- C9: `DeviceOrDeltas::build` maps `None` to `None` leaving the accumulator
alone, passes a literal `Device` through unchanged, and registers a delta list
with the accumulator, returning the resulting opaque pending handle wrapped in
a `PendingVariationIndex` placeholder. -/
theorem device_or_deltas_build_spec (s : VariationStoreBuilder) (d : Device)
    (ds : List (VariationRegion × Int)) :
    DeviceOrDeltas.none.build s = (Option.none, s) ∧
    (DeviceOrDeltas.device d).build s = (some (.device d), s) ∧
    (DeviceOrDeltas.deltas ds).build s =
      (some (.pendingVariationIndex ⟨(s.add_deltas ds).1⟩), (s.add_deltas ds).2) :=
  ⟨rfl, rfl, rfl⟩

/-- The accumulator variant of `iter_class_ranges` emits one record per
maximal run: its output length is the run count of the pending run followed by
the remaining items. -/
theorem classRangesAux_length (s e c : Nat) (l : List (Nat × Nat)) :
    (classRangesAux s e c l).length = runCount ((e, c) :: l) := by
  induction l generalizing s e c with
  | nil => rfl
  | cons hd tl ih =>
    obtain ⟨g, cc⟩ := hd
    by_cases h : e + 1 = g ∧ c = cc
    · obtain ⟨h1, h2⟩ := h
      subst h2
      simp [classRangesAux, runCount, h1, ih]
    · simp only [classRangesAux, runCount, if_neg h, List.length_cons, ih]
      omega

/-- `iter_class_ranges` emits exactly one range record per maximal run of
consecutive glyph ids sharing a class. -/
theorem iter_class_ranges_length (items : List (Nat × Nat)) :
    (iter_class_ranges items).length = runCount items := by
  cases items with
  | nil => rfl
  | cons hd tl =>
    obtain ⟨g, c⟩ := hd
    exact classRangesAux_length g g c tl

/-- C5: the ClassDef encoder sizes format 1 as `6 + 2 * (last - first + 1)`
and format 2 as `4 + 6 * (number of maximal runs of consecutive glyph ids
sharing a class)`, prefers format 1 exactly when its size is strictly smaller,
emits format 2 (with exactly the computed range records) otherwise, and an
empty mapping always yields format 2 with zero ranges.  The items are the
`BTreeMap` contents, so their keys are strictly ascending. -/
theorem classdef_format_selection (items : List (Nat × Nat))
    (hsorted : items.Pairwise (fun a b => a.1 < b.1)) :
    (buildClassDefImpl [] = ClassDef.format2 [] ∧ prefer_format_1 [] = false) ∧
    (items ≠ [] →
      (prefer_format_1 items = true ↔
        6 + 2 * (((items.getLast?.map Prod.fst).getD 0
            - (items.head?.map Prod.fst).getD 0) + 1)
          < 4 + 6 * runCount items)) ∧
    (prefer_format_1 items = false →
      buildClassDefImpl items = ClassDef.format2 (iter_class_ranges items)) ∧
    (prefer_format_1 items = true →
      ∃ s arr, buildClassDefImpl items = ClassDef.format1 s arr) := by
  refine ⟨⟨rfl, rfl⟩, ?_, ?_, ?_⟩
  · intro hne
    match items with
    | [] => exact absurd rfl hne
    | (g0, c0) :: tl =>
      simp only [prefer_format_1, List.head?_cons, Option.map_some', Option.getD_some,
        iter_class_ranges_length, decide_eq_true_eq]
      constructor
      · intro h
        omega
      · intro h
        omega
  · intro h
    simp [buildClassDefImpl, h]
  · intro h
    refine ⟨(items.head?.map Prod.fst).getD 0,
      (List.range (((items.getLast?.map Prod.fst).getD 0
          - (items.head?.map Prod.fst).getD 0) + 1)).map
        (fun k => (items.lookup ((items.head?.map Prod.fst).getD 0 + k)).getD 0), ?_⟩
    simp [buildClassDefImpl, h]

/-- Witness for C5: on the mapping 3↦4, 4↦6, 5↦1, 9↦5, 10↦2, 11↦3 (strictly
ascending keys), format 1 is preferred, and the size comparison instantiates
to 24 < 40. -/
theorem classdef_format_selection_witness :
    ([((3 : Nat), (4 : Nat)), (4, 6), (5, 1), (9, 5), (10, 2), (11, 3)].Pairwise
      (fun a b => a.1 < b.1)) ∧
    (prefer_format_1 [(3, 4), (4, 6), (5, 1), (9, 5), (10, 2), (11, 3)] = true ↔
      6 + 2 * ((([((3 : Nat), (4 : Nat)), (4, 6), (5, 1), (9, 5), (10, 2),
          (11, 3)].getLast?.map Prod.fst).getD 0
        - ([((3 : Nat), (4 : Nat)), (4, 6), (5, 1), (9, 5), (10, 2),
          (11, 3)].head?.map Prod.fst).getD 0) + 1)
        < 4 + 6 * runCount [(3, 4), (4, 6), (5, 1), (9, 5), (10, 2), (11, 3)]) :=
  ⟨by decide,
    (classdef_format_selection _ (by decide)).2.1 (by decide)⟩

/-- Membership after `addGlyph`: exactly the old glyphs plus the new one. -/
theorem addGlyph_mem (l : List Nat) (g x : Nat) :
    x ∈ (addGlyph l g).1 ↔ x = g ∨ x ∈ l := by
  induction l with
  | nil => simp [addGlyph]
  | cons h t ih =>
    by_cases h1 : h < g
    · simp only [addGlyph, if_pos h1, List.mem_cons, ih]
      tauto
    · by_cases h2 : g < h
      · simp only [addGlyph, if_neg h1, if_pos h2, List.mem_cons]
      · have heq : h = g := Nat.le_antisymm (Nat.not_lt.mp h2) (Nat.not_lt.mp h1)
        simp only [addGlyph, if_neg h1, if_neg h2, List.mem_cons]
        rw [heq]
        tauto

/-- `addGlyph` keeps the glyph list strictly sorted. -/
theorem addGlyph_sorted (l : List Nat) (g : Nat) (hs : l.Sorted (· < ·)) :
    (addGlyph l g).1.Sorted (· < ·) := by
  induction l with
  | nil => simp [addGlyph]
  | cons h t ih =>
    rw [List.sorted_cons] at hs
    obtain ⟨hhd, htl⟩ := hs
    by_cases h1 : h < g
    · simp only [addGlyph, if_pos h1]
      rw [List.sorted_cons]
      refine ⟨?_, ih htl⟩
      intro b hb
      rcases (addGlyph_mem t g b).mp hb with rfl | hbt
      · exact h1
      · exact hhd b hbt
    · by_cases h2 : g < h
      · simp only [addGlyph, if_neg h1, if_pos h2]
        rw [List.sorted_cons]
        refine ⟨?_, List.sorted_cons.mpr ⟨hhd, htl⟩⟩
        intro b hb
        rcases List.mem_cons.mp hb with rfl | hbt
        · exact h2
        · exact h2.trans (hhd b hbt)
      · simp only [addGlyph, if_neg h1, if_neg h2]
        exact List.sorted_cons.mpr ⟨hhd, htl⟩

/-- The index returned by `addGlyph` is bounded by the number of glyphs
smaller than the inserted one. -/
theorem addGlyph_idx_le (l : List Nat) (g : Nat) :
    (addGlyph l g).2 ≤ l.countP (fun x => decide (x < g)) := by
  induction l with
  | nil => simp [addGlyph]
  | cons h t ih =>
    rw [List.countP_cons]
    by_cases h1 : h < g
    · simp only [addGlyph, if_pos h1, decide_eq_true_eq]
      omega
    · by_cases h2 : g < h
      · simp [addGlyph, h1, h2]
      · simp [addGlyph, h1, h2]

/-- The updated glyph list holds the inserted (or found) glyph at the
returned index. -/
theorem addGlyph_getElem (l : List Nat) (g : Nat) :
    (addGlyph l g).1[(addGlyph l g).2]? = some g := by
  induction l with
  | nil => rfl
  | cons h t ih =>
    by_cases h1 : h < g
    · simpa only [addGlyph, if_pos h1, List.getElem?_cons_succ] using ih
    · by_cases h2 : g < h
      · simp [addGlyph, h1, h2]
      · have heq : h = g := Nat.le_antisymm (Nat.not_lt.mp h2) (Nat.not_lt.mp h1)
        simp [addGlyph, h1, h2, heq]

/-- A duplicate-free list of naturals has at most `g` entries below `g`. -/
theorem countP_lt_le_of_nodup (l : List Nat) (hnd : l.Nodup) (g : Nat) :
    l.countP (fun x => decide (x < g)) ≤ g := by
  rw [List.countP_eq_length_filter]
  have hf : (l.filter (fun x => decide (x < g))).Nodup := hnd.filter _
  have hsub : (l.filter (fun x => decide (x < g))).toFinset ⊆ Finset.range g := by
    intro x hx
    rw [List.mem_toFinset, List.mem_filter] at hx
    rw [Finset.mem_range]
    exact of_decide_eq_true hx.2
  calc (l.filter (fun x => decide (x < g))).length
      = (l.filter (fun x => decide (x < g))).toFinset.card :=
        (List.toFinset_card_of_nodup hf).symm
    _ ≤ (Finset.range g).card := Finset.card_le_card hsub
    _ = g := Finset.card_range g

/-- C10: on a builder whose glyph vector satisfies the sorted-and-deduplicated
invariant, and for a 16-bit glyph id, `CoverageTableBuilder::add` returns an
index below 2^16 — so the `usize`-to-`u16` conversion on the insert path
(`ix.try_into().unwrap()`) cannot panic — and that index locates the glyph in
the updated, still strictly sorted, glyph sequence. -/
theorem coverage_add_total_no_panic (b : CoverageTableBuilder) (g : Nat)
    (hs : b.glyphs.Sorted (· < ·)) (hg : g < 2 ^ 16) :
    (b.add g).2 < 2 ^ 16 ∧
    (b.add g).1.glyphs[(b.add g).2]? = some g ∧
    (b.add g).1.glyphs.Sorted (· < ·) := by
  refine ⟨?_, addGlyph_getElem b.glyphs g, addGlyph_sorted b.glyphs g hs⟩
  have h1 := addGlyph_idx_le b.glyphs g
  have h2 := countP_lt_le_of_nodup b.glyphs hs.nodup g
  show (addGlyph b.glyphs g).2 < 2 ^ 16
  omega

/-- Witness for C10: adding glyph 7 to the sorted builder over 5, 10
returns index 1, below 2^16. -/
theorem coverage_add_total_no_panic_witness :
    (CoverageTableBuilder.mk [5, 10]).glyphs.Sorted (· < ·) ∧ (7 : Nat) < 2 ^ 16 ∧
    ((CoverageTableBuilder.mk [5, 10]).add 7).2 < 2 ^ 16 :=
  ⟨by decide, by decide,
    (coverage_add_total_no_panic (CoverageTableBuilder.mk [5, 10]) 7
      (by decide) (by decide)).1⟩

/-- Consecutive dedup does not change which elements occur. -/
theorem dedupConsec_mem {α : Type} [DecidableEq α] :
    ∀ (l : List α) (x : α), x ∈ dedupConsec l ↔ x ∈ l
  | [], x => by simp [dedupConsec]
  | [a], x => by simp [dedupConsec]
  | a :: b :: t, x => by
    by_cases h : a = b
    · simp only [dedupConsec, if_pos h, dedupConsec_mem (b :: t) x, List.mem_cons]
      rw [h]
      tauto
    · simp only [dedupConsec, if_neg h, List.mem_cons, dedupConsec_mem (b :: t) x]

/-- Consecutive dedup of a weakly sorted list is strictly sorted. -/
theorem dedupConsec_sorted_lt :
    ∀ l : List Nat, l.Sorted (· ≤ ·) → (dedupConsec l).Sorted (· < ·)
  | [], _ => by simp [dedupConsec]
  | [a], _ => by simp [dedupConsec]
  | a :: b :: t, hs => by
    have htl : (b :: t).Sorted (· ≤ ·) := hs.of_cons
    have hrec := dedupConsec_sorted_lt (b :: t) htl
    rw [List.sorted_cons] at hs
    obtain ⟨hhd, _⟩ := hs
    by_cases h : a = b
    · simpa only [dedupConsec, if_pos h] using hrec
    · simp only [dedupConsec, if_neg h]
      rw [List.sorted_cons]
      refine ⟨?_, hrec⟩
      intro y hy
      have hyin : y ∈ b :: t := (dedupConsec_mem (b :: t) y).mp hy
      have hay : a ≤ y := hhd y hyin
      rcases List.mem_cons.mp hyin with rfl | hyt
      · exact lt_of_le_of_ne hay h
      · have hby : b ≤ y := (List.sorted_cons.mp htl).1 y hyt
        have hab : a ≤ b := hhd b (List.mem_cons_self b t)
        refine lt_of_le_of_ne hay ?_
        intro he
        exact h (le_antisymm hab (he ▸ hby))

/-- The glyph list of a fold of `CoverageTableBuilder::add` is the fold of
`addGlyph` over the glyph lists. -/
theorem foldl_add_glyphs (l : List Nat) : ∀ acc : CoverageTableBuilder,
    (l.foldl (fun b g => (b.add g).1) acc).glyphs
      = l.foldl (fun a g => (addGlyph a g).1) acc.glyphs := by
  induction l with
  | nil => intro acc; rfl
  | cons hd tl ih =>
    intro acc
    simp only [List.foldl_cons]
    exact ih _

/-- Folding `addGlyph` preserves strict sortedness and accumulates exactly
the inserted glyphs. -/
theorem foldl_addGlyph_sorted_mem (l : List Nat) :
    ∀ acc : List Nat, acc.Sorted (· < ·) →
    (l.foldl (fun a g => (addGlyph a g).1) acc).Sorted (· < ·) ∧
    ∀ x, x ∈ l.foldl (fun a g => (addGlyph a g).1) acc ↔ x ∈ acc ∨ x ∈ l := by
  induction l with
  | nil => intro acc hs; simp [hs]
  | cons hd tl ih =>
    intro acc hs
    simp only [List.foldl_cons]
    obtain ⟨hs', hm'⟩ := ih (addGlyph acc hd).1 (addGlyph_sorted acc hd hs)
    refine ⟨hs', ?_⟩
    intro x
    rw [hm' x, addGlyph_mem, List.mem_cons]
    tauto

/-- Two strictly sorted lists with the same members are equal. -/
theorem sorted_lt_eq_of_mem_iff (l1 l2 : List Nat) (h1 : l1.Sorted (· < ·))
    (h2 : l2.Sorted (· < ·)) (hm : ∀ x, x ∈ l1 ↔ x ∈ l2) : l1 = l2 := by
  have htf : l1.toFinset = l2.toFinset := by
    ext x
    simp only [List.mem_toFinset]
    exact hm x
  exact List.eq_of_perm_of_sorted
    (List.perm_of_nodup_nodup_toFinset_eq h1.nodup h2.nodup htf) h1 h2

/-- Coverage builders with equal glyph lists are equal. -/
theorem coverage_builder_eq_of_glyphs_eq (a b : CoverageTableBuilder)
    (h : a.glyphs = b.glyphs) : a = b := by
  cases a
  cases b
  cases h
  rfl

/-- C6: coverage insertion is order independent — any two insertion orders of
a glyph multiset produce the same builder by repeated `add` from the empty
builder, and `from_glyphs` produces that same builder: the ascending,
deduplicated sequence of the glyphs. -/
theorem coverage_insertion_order_independent (l1 l2 : List Nat)
    (hp : l1.Perm l2) :
    addAllGlyphs l1 = addAllGlyphs l2 ∧
    CoverageTableBuilder.from_glyphs l1 = addAllGlyphs l1 := by
  have key : ∀ l : List Nat, (addAllGlyphs l).glyphs.Sorted (· < ·) ∧
      ∀ x, x ∈ (addAllGlyphs l).glyphs ↔ x ∈ l := by
    intro l
    have hb : (addAllGlyphs l).glyphs = l.foldl (fun a g => (addGlyph a g).1) [] :=
      foldl_add_glyphs l ⟨[]⟩
    obtain ⟨hs, hm⟩ := foldl_addGlyph_sorted_mem l [] (by simp)
    rw [hb]
    refine ⟨hs, fun x => ?_⟩
    rw [hm x]
    simp
  have hfrom : (CoverageTableBuilder.from_glyphs l1).glyphs.Sorted (· < ·) ∧
      ∀ x, x ∈ (CoverageTableBuilder.from_glyphs l1).glyphs ↔ x ∈ l1 := by
    constructor
    · exact dedupConsec_sorted_lt _ (List.sorted_insertionSort _ l1)
    · intro x
      show x ∈ dedupConsec (l1.insertionSort (· ≤ ·)) ↔ x ∈ l1
      rw [dedupConsec_mem]
      exact (List.perm_insertionSort (· ≤ ·) l1).mem_iff
  constructor
  · refine coverage_builder_eq_of_glyphs_eq _ _ ?_
    refine sorted_lt_eq_of_mem_iff _ _ (key l1).1 (key l2).1 ?_
    intro x
    rw [(key l1).2 x, (key l2).2 x]
    exact hp.mem_iff
  · refine coverage_builder_eq_of_glyphs_eq _ _ ?_
    refine sorted_lt_eq_of_mem_iff _ _ hfrom.1 (key l1).1 ?_
    intro x
    rw [hfrom.2 x, (key l1).2 x]

/-- Witness for C6: the glyph sequence 1 2 9 3 6 9 and its reversal give the
same builder, which `from_glyphs` also produces. -/
theorem coverage_insertion_order_independent_witness :
    ([1, 2, 9, 3, 6, 9] : List Nat).Perm [9, 6, 3, 9, 2, 1] ∧
    addAllGlyphs [1, 2, 9, 3, 6, 9] = addAllGlyphs [9, 6, 3, 9, 2, 1] :=
  ⟨by decide, (coverage_insertion_order_independent _ _ (by decide)).1⟩

/-- Consecutive dedup is the identity on a duplicate-free list. -/
theorem dedupConsec_eq_self_of_nodup {α : Type} [DecidableEq α] :
    ∀ l : List α, l.Nodup → dedupConsec l = l
  | [], _ => rfl
  | [_], _ => rfl
  | a :: b :: t, hnd => by
    have h : a ≠ b := by
      intro he
      exact (List.nodup_cons.mp hnd).1 (he ▸ List.mem_cons_self b t)
    have hnd' : (b :: t).Nodup := (List.nodup_cons.mp hnd).2
    simp only [dedupConsec, if_neg h, dedupConsec_eq_self_of_nodup (b :: t) hnd']

/-- C4 (amended): `build_with_mapping` (for any enumeration order of the
committed classes, all distinct) sorts the classes by size descending,
breaking ties by ascending minimum member glyph id, and — provided the class
count plus the starting id stays within u16 range, so that the source's
`i as u16 + add_one` arithmetic does not wrap — assigns consecutive ids
starting at 1 (at 0 in class-0-usable mode): the assigned ids are exactly the
consecutive range, every committed class receives an id, and whenever one
class is larger — or equal-sized with a smaller minimum member — than
another, it receives a strictly lower id.  Without the bound the u16 ids wrap
and duplicate. -/
theorem build_with_mapping_deterministic_order (l : List (Finset Nat))
    (use0 : Bool) (hnd : l.Nodup)
    (hbound : l.length + (if use0 then 0 else 1) ≤ 2 ^ 16) :
    ((build_with_mapping l use0).map Prod.snd
      = (List.range l.length).map (fun i => i + if use0 then 0 else 1)) ∧
    (∀ c ∈ l, ∃ p ∈ build_with_mapping l use0, p.1 = c) ∧
    (∀ p ∈ build_with_mapping l use0, ∀ q ∈ build_with_mapping l use0,
      (q.1.card < p.1.card ∨ (p.1.card = q.1.card ∧ minGlyph p.1 < minGlyph q.1)) →
      p.2 < q.2) := by
  set a := (if use0 then (0 : Nat) else 1) with ha
  set s := l.insertionSort classOrder with hsdef
  have hperm : s.Perm l := List.perm_insertionSort classOrder l
  have hsnd : s.Nodup := hperm.nodup_iff.mpr hnd
  have hded : dedupConsec s = s := dedupConsec_eq_self_of_nodup s hsnd
  have hslen : s.length = l.length := hperm.length_eq
  have hsorted : s.Sorted classOrder := List.sorted_insertionSort classOrder l
  have mEq : build_with_mapping l use0
      = (s.zip (List.range s.length)).map
        (fun p => (p.1, (p.2 % 2 ^ 16 + a) % 2 ^ 16)) := by
    simp only [build_with_mapping, ← hsdef, hded, ← ha]
  have hmlen : (build_with_mapping l use0).length = s.length := by
    rw [mEq]
    simp
  have hget : ∀ (i : Nat) (hi : i < s.length)
      (hm : i < (build_with_mapping l use0).length),
      (build_with_mapping l use0)[i] = (s[i], i + a) := by
    intro i hi hm
    have hz : i < (s.zip (List.range s.length)).length := by
      simp [List.length_zip]
      omega
    have h1 : i % 2 ^ 16 = i := Nat.mod_eq_of_lt (by omega)
    have h2 : (i + a) % 2 ^ 16 = i + a := Nat.mod_eq_of_lt (by omega)
    simp [mEq, List.getElem_map, List.getElem_zip, List.getElem_range, h1, h2]
    omega
  have hmem : ∀ p ∈ build_with_mapping l use0,
      ∃ i, ∃ hi : i < s.length, p = (s[i], i + a) := by
    intro p hp
    obtain ⟨i, hi, hpi⟩ := List.mem_iff_getElem.mp hp
    have hi' : i < s.length := by rwa [hmlen] at hi
    exact ⟨i, hi', by rw [← hpi, hget i hi' hi]⟩
  refine ⟨?_, ?_, ?_⟩
  · rw [mEq, List.map_map]
    have hfun : (Prod.snd ∘ fun p : Finset Nat × Nat => (p.1, (p.2 % 2 ^ 16 + a) % 2 ^ 16))
        = (fun i => (i % 2 ^ 16 + a) % 2 ^ 16) ∘ Prod.snd := rfl
    rw [hfun, ← List.map_map]
    rw [List.map_snd_zip s (List.range s.length) (by simp)]
    rw [hslen]
    apply List.map_congr_left
    intro i hi
    rw [List.mem_range] at hi
    have h1 : i % 2 ^ 16 = i := Nat.mod_eq_of_lt (by omega)
    have h2 : (i + a) % 2 ^ 16 = i + a := Nat.mod_eq_of_lt (by omega)
    rw [h1, h2]
  · intro c hc
    have hcs : c ∈ s := hperm.mem_iff.mpr hc
    obtain ⟨i, hi, hci⟩ := List.mem_iff_getElem.mp hcs
    have hm : i < (build_with_mapping l use0).length := by
      rw [hmlen]
      exact hi
    refine ⟨(build_with_mapping l use0)[i], ?_, ?_⟩
    · exact List.getElem_mem _
    · rw [hget i hi hm, hci]
  · intro p hp q hq hstrict
    obtain ⟨i, hi, hpi⟩ := hmem p hp
    obtain ⟨j, hj, hqj⟩ := hmem q hq
    subst hpi
    subst hqj
    simp only at hstrict ⊢
    have hij : i < j := by
      rcases Nat.lt_trichotomy i j with h | h | h
      · exact h
      · subst h
        rcases hstrict with h1 | ⟨_, h2⟩
        · exact absurd h1 (lt_irrefl _)
        · exact absurd h2 (lt_irrefl _)
      · have hco : classOrder s[j] s[i] :=
          List.pairwise_iff_getElem.mp hsorted j i hj hi h
        unfold classOrder at hco
        rcases hstrict with h1 | ⟨h2, h3⟩ <;> rcases hco with h4 | ⟨h5, h6⟩ <;> omega
    omega

/-- Witness for C4: the classes 789, 1 12, 3 4 from the repository's
`classdef_assign_order` test, in default (class-0-reserved) mode, receive the
consecutive ids 1, 2, 3. -/
theorem build_with_mapping_deterministic_order_witness :
    ([({7, 8, 9} : Finset Nat), {1, 12}, {3, 4}].Nodup) ∧
    ([({7, 8, 9} : Finset Nat), {1, 12}, {3, 4}].length
      + (if false then 0 else 1) ≤ 2 ^ 16) ∧
    ((build_with_mapping [({7, 8, 9} : Finset Nat), {1, 12}, {3, 4}] false).map
        Prod.snd
      = (List.range ([({7, 8, 9} : Finset Nat), {1, 12}, {3, 4}].length)).map
        (fun i => i + if false then 0 else 1)) :=
  ⟨by decide, by decide,
    (build_with_mapping_deterministic_order
      [({7, 8, 9} : Finset Nat), {1, 12}, {3, 4}] false (by decide) (by decide)).1⟩

/-- Over the ceiling, the visited check reports true and leaves the context
unchanged. -/
theorem langsys_visited_over (c : CollectFeaturesContext) (l : LangSysT)
    (h : MAX_LANGSYS < c.langsys_count) :
    c.langsys_visited l = (true, c) := by
  simp [CollectFeaturesContext.langsys_visited, h]

/-- On a recorded offset, the visited check reports true and only bumps the
counter. -/
theorem langsys_visited_seen (c : CollectFeaturesContext) (l : LangSysT)
    (h1 : ¬ MAX_LANGSYS < c.langsys_count)
    (h2 : ((l.offset - c.table_head) % 2 ^ 32) ∈ c.visited_langsys) :
    c.langsys_visited l
      = (true, { c with langsys_count := c.langsys_count + 1 }) := by
  simp [CollectFeaturesContext.langsys_visited, h1, h2]
  simpa using h2

/-- On a fresh offset, the visited check reports false, bumps the counter and
records the offset. -/
theorem langsys_visited_fresh (c : CollectFeaturesContext) (l : LangSysT)
    (h1 : ¬ MAX_LANGSYS < c.langsys_count)
    (h2 : ((l.offset - c.table_head) % 2 ^ 32) ∉ c.visited_langsys) :
    c.langsys_visited l
      = (false, { c with
          langsys_count := c.langsys_count + 1,
          visited_langsys :=
            insert ((l.offset - c.table_head) % 2 ^ 32) c.visited_langsys }) := by
  simp [CollectFeaturesContext.langsys_visited, h1, h2]
  simpa using h2

/-- The visited check never changes the output set, the filter, or the table
origin. -/
theorem langsys_visited_preserves (c : CollectFeaturesContext) (l : LangSysT) :
    (c.langsys_visited l).2.feature_indices = c.feature_indices ∧
    (c.langsys_visited l).2.feature_indices_filter = c.feature_indices_filter ∧
    (c.langsys_visited l).2.table_head = c.table_head := by
  by_cases h1 : MAX_LANGSYS < c.langsys_count
  · rw [langsys_visited_over c l h1]
    exact ⟨rfl, rfl, rfl⟩
  · by_cases h2 : ((l.offset - c.table_head) % 2 ^ 32) ∈ c.visited_langsys
    · rw [langsys_visited_seen c l h1 h2]
      exact ⟨rfl, rfl, rfl⟩
    · rw [langsys_visited_fresh c l h1 h2]
      exact ⟨rfl, rfl, rfl⟩

/-- The quota check only changes the cumulative feature counter. -/
theorem limit_exceeded_preserves (c : CollectFeaturesContext) (n : Nat) :
    (c.feature_indices_limit_exceeded n).2.langsys_count = c.langsys_count ∧
    (c.feature_indices_limit_exceeded n).2.visited_langsys = c.visited_langsys ∧
    (c.feature_indices_limit_exceeded n).2.table_head = c.table_head ∧
    (c.feature_indices_limit_exceeded n).2.feature_indices_filter
      = c.feature_indices_filter ∧
    (c.feature_indices_limit_exceeded n).2.feature_indices = c.feature_indices := by
  simp only [CollectFeaturesContext.feature_indices_limit_exceeded]
  split_ifs <;> exact ⟨rfl, rfl, rfl, rfl, rfl⟩

/-- The contribution phase never changes the LangSys counter, the visited
set, the table origin, or the filter. -/
theorem featurePhase_preserves (l : LangSysT) (c : CollectFeaturesContext) :
    (l.featurePhase c).langsys_count = c.langsys_count ∧
    (l.featurePhase c).visited_langsys = c.visited_langsys ∧
    (l.featurePhase c).table_head = c.table_head ∧
    (l.featurePhase c).feature_indices_filter = c.feature_indices_filter := by
  obtain ⟨sc, lc, fic, vs, vl, fi, fif, fl, th⟩ := c
  cases fif with
  | some f => exact ⟨rfl, rfl, rfl, rfl⟩
  | none =>
    simp only [LangSysT.featurePhase,
      CollectFeaturesContext.feature_indices_limit_exceeded]
    split_ifs <;> exact ⟨rfl, rfl, rfl, rfl⟩

/-- With a filter present, the contribution phase is the identity (the
source's `else` branch is empty). -/
theorem featurePhase_of_filter_some (l : LangSysT) (c : CollectFeaturesContext)
    (f : Finset Nat) (h : c.feature_indices_filter = some f) :
    l.featurePhase c = c := by
  simp only [LangSysT.featurePhase, h]

/-- A LangSys whose offset is already recorded, or a context over the LangSys
ceiling, is reported as visited. -/
theorem langsys_visited_true_of (c : CollectFeaturesContext) (l : LangSysT)
    (h : MAX_LANGSYS < c.langsys_count ∨
      ((l.offset - c.table_head) % 2 ^ 32) ∈ c.visited_langsys) :
    (c.langsys_visited l).1 = true := by
  by_cases h1 : MAX_LANGSYS < c.langsys_count
  · rw [langsys_visited_over c l h1]
  · rcases h with h | h
    · exact absurd h h1
    · rw [langsys_visited_seen c l h1 h]

/-- When the visited check reports true, `collect_features` returns the
checked context unchanged. -/
theorem collect_features_of_visited (l : LangSysT) (c : CollectFeaturesContext)
    (h : (c.langsys_visited l).1 = true) :
    l.collect_features c = (c.langsys_visited l).2 := by
  simp only [LangSysT.collect_features, h, if_true]

/-- After `collect_features`, the context records the LangSys's offset as
visited or sits over the LangSys ceiling, and the table origin is unchanged. -/
theorem collect_features_marks_visited (l : LangSysT) (c : CollectFeaturesContext) :
    (MAX_LANGSYS < (l.collect_features c).langsys_count ∨
      ((l.offset - c.table_head) % 2 ^ 32) ∈ (l.collect_features c).visited_langsys) ∧
    (l.collect_features c).table_head = c.table_head := by
  by_cases h1 : MAX_LANGSYS < c.langsys_count
  · have he : l.collect_features c = c := by
      simp [LangSysT.collect_features, langsys_visited_over c l h1]
    rw [he]
    exact ⟨Or.inl h1, rfl⟩
  · by_cases h2 : ((l.offset - c.table_head) % 2 ^ 32) ∈ c.visited_langsys
    · have he : l.collect_features c
          = { c with langsys_count := c.langsys_count + 1 } := by
        simp [LangSysT.collect_features, langsys_visited_seen c l h1 h2]
      rw [he]
      exact ⟨Or.inr h2, rfl⟩
    · have he : l.collect_features c
          = l.featurePhase { c with
              langsys_count := c.langsys_count + 1,
              visited_langsys :=
                insert ((l.offset - c.table_head) % 2 ^ 32) c.visited_langsys } := by
        simp [LangSysT.collect_features, langsys_visited_fresh c l h1 h2]
      obtain ⟨hc, hv, ht, hf⟩ := featurePhase_preserves l
        { c with
          langsys_count := c.langsys_count + 1,
          visited_langsys :=
            insert ((l.offset - c.table_head) % 2 ^ 32) c.visited_langsys }
      rw [he]
      refine ⟨Or.inr ?_, ht⟩
      rw [hv]
      exact Finset.mem_insert_self _ _

/-- C2: two LangSys records that resolve to the same physical byte offset are
deduplicated regardless of their tags (which `langsys_visited` never sees):
after the first is visited, the visited check reports the second as already
visited, and its `collect_features` leaves the output feature-index set
exactly as the first visit left it. -/
theorem langsys_aliasing_dedup (c : CollectFeaturesContext) (l1 l2 : LangSysT)
    (hoff : l1.offset = l2.offset) :
    ((l1.collect_features c).langsys_visited l2).1 = true ∧
    (l2.collect_features (l1.collect_features c)).feature_indices
      = (l1.collect_features c).feature_indices := by
  have hmark := collect_features_marks_visited l1 c
  have hvis : ((l1.collect_features c).langsys_visited l2).1 = true := by
    apply langsys_visited_true_of
    rcases hmark.1 with h | h
    · exact Or.inl h
    · refine Or.inr ?_
      rw [hmark.2, ← hoff]
      exact h
  refine ⟨hvis, ?_⟩
  rw [collect_features_of_visited l2 _ hvis]
  exact (langsys_visited_preserves _ l2).1

/-- Witness for C2: a context fresh from `new`, and two LangSys views with
distinct required features and feature lists aliasing byte offset 64. -/
theorem langsys_aliasing_dedup_witness :
    (LangSysT.mk 64 2 [4, 5]).offset = (LangSysT.mk 64 9 [6]).offset ∧
    (((LangSysT.mk 64 2 [4, 5]).collect_features
        (CollectFeaturesContext.new Option.none 0 [] ∅)).langsys_visited
      (LangSysT.mk 64 9 [6])).1 = true :=
  ⟨rfl,
    (langsys_aliasing_dedup (CollectFeaturesContext.new Option.none 0 [] ∅)
      (LangSysT.mk 64 2 [4, 5]) (LangSysT.mk 64 9 [6]) rfl).1⟩

/-- C1 (behaviour at the claim's input): for the one-script font whose `latn`
default LangSys has required-feature index 3 and feature list 3 5 7, queried
with scripts = latn only and no language or feature filter, the set returned
by `ScriptList::collect_features` is empty — `out` is never populated — while
the context's output parameter receives exactly the de-duplicated indices
3 5 7. -/
theorem collect_features_latn_example :
    (ScriptListT.collect_features ⟨[(1, ⟨some ⟨100, 3, [3, 5, 7]⟩, []⟩)]⟩
        (CollectFeaturesContext.new Option.none 0 [] ∅) (some [1]) Option.none
        Option.none).1 = (∅ : Finset Tag) ∧
    (ScriptListT.collect_features ⟨[(1, ⟨some ⟨100, 3, [3, 5, 7]⟩, []⟩)]⟩
        (CollectFeaturesContext.new Option.none 0 [] ∅) (some [1]) Option.none
        Option.none).2.feature_indices = ({3, 5, 7} : Finset Nat) := by
  exact ⟨rfl, by decide⟩

/-- Folding a filter-preserving step preserves the feature-index filter. -/
theorem foldl_filter_invariant {α : Type}
    (step : CollectFeaturesContext → α → CollectFeaturesContext)
    (h : ∀ c a, (step c a).feature_indices_filter = c.feature_indices_filter) :
    ∀ (xs : List α) (c : CollectFeaturesContext),
      (xs.foldl step c).feature_indices_filter = c.feature_indices_filter := by
  intro xs
  induction xs with
  | nil => intro c; rfl
  | cons x t ih =>
    intro c
    rw [List.foldl_cons, ih, h]

/-- A LangSys visit never changes the feature-index filter. -/
theorem collect_features_filter (l : LangSysT) (c : CollectFeaturesContext) :
    (l.collect_features c).feature_indices_filter = c.feature_indices_filter := by
  simp only [LangSysT.collect_features]
  by_cases h : (c.langsys_visited l).1 = true
  · simp only [h, if_true]
    exact (langsys_visited_preserves c l).2.1
  · simp only [h, if_false, Bool.false_eq_true]
    rw [(featurePhase_preserves l _).2.2.2]
    exact (langsys_visited_preserves c l).2.1

/-- A Script visit never changes the feature-index filter. -/
theorem script_collect_filter (s : ScriptT) (c : CollectFeaturesContext)
    (languages : Option (List Tag)) :
    (s.collect_features c languages).feature_indices_filter
      = c.feature_indices_filter := by
  cases languages with
  | none =>
    simp only [ScriptT.collect_features]
    rw [foldl_filter_invariant (fun acc (r : Tag × LangSysT) => r.2.collect_features acc)
      (fun acc r => collect_features_filter r.2 acc) s.langSysRecords]
    cases s.defaultLangSys with
    | none => rfl
    | some d => exact collect_features_filter d c
  | some langs =>
    simp only [ScriptT.collect_features]
    apply foldl_filter_invariant
    intro acc t
    rcases hidx : s.lang_sys_index_for_tag t with _ | idx
    · simp [hidx]
    · rcases hrec : s.langSysRecords[idx]? with _ | r
      · simp [hidx, hrec]
      · simp [hidx, hrec, collect_features_filter]

/-- The whole ScriptList traversal never changes the feature-index filter. -/
theorem scriptlist_collect_filter (sl : ScriptListT) (c : CollectFeaturesContext)
    (scripts languages : Option (List Tag)) (fa : Option (Finset Tag)) :
    (sl.collect_features c scripts languages fa).2.feature_indices_filter
      = c.feature_indices_filter := by
  cases scripts with
  | none =>
    simp only [ScriptListT.collect_features]
    exact foldl_filter_invariant (fun acc (r : Tag × ScriptT) => r.2.collect_features acc languages)
      (fun acc r => script_collect_filter r.2 acc languages) sl.scriptRecords c
  | some sc =>
    simp only [ScriptListT.collect_features]
    apply foldl_filter_invariant
    intro acc t
    rcases hidx : sl.index_for_tag t with _ | idx
    · simp [hidx]
    · rcases hrec : sl.scriptRecords[idx]? with _ | r
      · simp [hidx, hrec]
      · simp [hidx, hrec, script_collect_filter]

/-- With a filter present a LangSys visit adds nothing to the output set
(the source's filtered branch is empty). -/
theorem collect_features_fi_of_filter_some (l : LangSysT)
    (c : CollectFeaturesContext) (f : Finset Nat)
    (h : c.feature_indices_filter = some f) :
    (l.collect_features c).feature_indices = c.feature_indices := by
  simp only [LangSysT.collect_features]
  by_cases hv : (c.langsys_visited l).1 = true
  · simp only [hv, if_true]
    exact (langsys_visited_preserves c l).1
  · simp only [hv, if_false, Bool.false_eq_true]
    rw [featurePhase_of_filter_some l _ f
      (by rw [(langsys_visited_preserves c l).2.1]; exact h)]
    exact (langsys_visited_preserves c l).1

/-- C7: with a feature filter supplied, the set of feature-list positions
whose tag is in the filter is computed once at context creation — it is the
filter field of the fresh context, it characterizes exactly the positions
with matching tags, and the whole traversal leaves it untouched — and every
LangSys contribution is restricted to it: no index outside the precomputed
set (indeed none at all, the filtered branch being empty in the source) is
ever added to the output set. -/
theorem feature_filter_precomputed_and_restricting (features : Finset Tag)
    (flist : List Tag) (head : Nat) (finit : Finset Nat) (sl : ScriptListT)
    (scripts languages : Option (List Tag)) (hlen : flist.length ≤ 2 ^ 16) :
    ((CollectFeaturesContext.new (some features) head flist finit).feature_indices_filter
      = some (computeFilterSet features flist)) ∧
    (∀ i, i ∈ computeFilterSet features flist ↔
      ∃ t, flist[i]? = some t ∧ t ∈ features) ∧
    ((sl.collect_features (CollectFeaturesContext.new (some features) head flist finit)
        scripts languages (some features)).2.feature_indices_filter
      = some (computeFilterSet features flist)) ∧
    (∀ (c : CollectFeaturesContext) (f : Finset Nat) (l : LangSysT),
      c.feature_indices_filter = some f →
      ∀ i ∈ (l.collect_features c).feature_indices,
        i ∈ c.feature_indices ∨ i ∈ f) := by
  refine ⟨rfl, ?_, ?_, ?_⟩
  · intro i
    simp only [computeFilterSet, List.mem_toFinset, List.mem_map, List.mem_filter]
    constructor
    · rintro ⟨⟨j, x⟩, ⟨hpe, hpf⟩, hpi⟩
      rw [List.mk_mem_enum_iff_getElem?] at hpe
      obtain ⟨hj, _⟩ := List.getElem?_eq_some.mp hpe
      have hji : j % 2 ^ 16 = j := Nat.mod_eq_of_lt (lt_of_lt_of_le hj hlen)
      simp only at hpi
      rw [hji] at hpi
      subst hpi
      exact ⟨x, hpe, of_decide_eq_true hpf⟩
    · rintro ⟨t, hget, htf⟩
      obtain ⟨hi, _⟩ := List.getElem?_eq_some.mp hget
      refine ⟨(i, t), ⟨List.mk_mem_enum_iff_getElem?.mpr hget, ?_⟩, ?_⟩
      · exact decide_eq_true htf
      · exact Nat.mod_eq_of_lt (lt_of_lt_of_le hi hlen)
  · rw [scriptlist_collect_filter]
    rfl
  · intro c f l h i hi
    rw [collect_features_fi_of_filter_some l c f h] at hi
    exact Or.inl hi

/-- Witness for C7: a two-entry feature list with tags 100 and 200, a filter
requesting tag 200; the fresh context's precomputed filter is position 1. -/
theorem feature_filter_precomputed_and_restricting_witness :
    ([100, 200] : List Tag).length ≤ 2 ^ 16 ∧
    ((CollectFeaturesContext.new (some {200}) 5 [100, 200] ∅).feature_indices_filter
      = some (computeFilterSet {200} [100, 200])) :=
  ⟨by decide,
    (feature_filter_precomputed_and_restricting {200} [100, 200] 5 ∅ ⟨[]⟩
      Option.none Option.none (by decide)).1⟩

/-- The minimum-or-zero key of a one-glyph class is that glyph. -/
theorem minGlyph_singleton (i : Nat) : minGlyph {i} = i := by
  simp only [minGlyph, Finset.min_singleton]
  rfl

/-- C4 counterexample: on the duplicate-free family of all 65536 one-glyph
classes followed by the empty class — committable through `checked_add`, since
every glyph is fresh and the empty class is disjoint from everything — the
u16 id arithmetic `i as u16 + add_one` of `build_with_mapping` wraps: the
one-glyph class of glyph 0 and the strictly smaller empty class both receive
id 1, so the ids are not the consecutive range starting at 1 and a larger
committed class does not always receive a lower id than a smaller one. -/
theorem build_with_mapping_wrap_duplicate_id :
    wrapClasses.Nodup ∧
    (({0} : Finset Nat), 1) ∈ build_with_mapping wrapClasses false ∧
    ((∅ : Finset Nat), 1) ∈ build_with_mapping wrapClasses false ∧
    (∅ : Finset Nat).card < ({0} : Finset Nat).card ∧
    ¬ (1 : Nat) < (1 : Nat) := by
  have hnd : wrapClasses.Nodup := by
    show ((List.range (2 ^ 16)).map (fun i => ({i} : Finset Nat)) ++ [∅]).Nodup
    rw [List.nodup_append]
    refine ⟨(List.nodup_range _).map Finset.singleton_injective, by simp, ?_⟩
    intro x hx hx2
    obtain ⟨i, hi, rfl⟩ := List.mem_map.mp hx
    simp only [List.mem_singleton] at hx2
    exact Finset.singleton_ne_empty i hx2
  have hpw : wrapClasses.Sorted classOrder := by
    show List.Pairwise classOrder
      ((List.range (2 ^ 16)).map (fun i => ({i} : Finset Nat)) ++ [∅])
    rw [List.pairwise_append]
    refine ⟨?_, by simp, ?_⟩
    · rw [List.pairwise_map]
      refine List.Pairwise.imp ?_ (List.pairwise_lt_range _)
      intro i j hij
      right
      refine ⟨by simp, ?_⟩
      rw [minGlyph_singleton, minGlyph_singleton]
      exact le_of_lt hij
    · intro x hx b hb
      obtain ⟨i, hi, rfl⟩ := List.mem_map.mp hx
      simp only [List.mem_singleton] at hb
      subst hb
      left
      simp
  have hsort_eq : List.insertionSort classOrder wrapClasses = wrapClasses :=
    hpw.insertionSort_eq
  have hded : dedupConsec wrapClasses = wrapClasses :=
    dedupConsec_eq_self_of_nodup _ hnd
  have hlen : wrapClasses.length = 2 ^ 16 + 1 := by
    show ((List.range (2 ^ 16)).map (fun i => ({i} : Finset Nat)) ++ [∅]).length
      = 2 ^ 16 + 1
    rw [List.length_append, List.length_map, List.length_range, List.length_singleton]
  have mEq : build_with_mapping wrapClasses false
      = (wrapClasses.zip (List.range wrapClasses.length)).map
        (fun p => (p.1, (p.2 % 2 ^ 16 + 1) % 2 ^ 16)) := by
    simp only [build_with_mapping, hsort_eq, hded, Bool.false_eq_true, if_false]
  have hzlen : (wrapClasses.zip (List.range wrapClasses.length)).length
      = 2 ^ 16 + 1 := by
    rw [List.length_zip, List.length_range, hlen]
    omega
  have hz0 : 0 < (wrapClasses.zip (List.range wrapClasses.length)).length := by
    omega
  have hzlast : 2 ^ 16 < (wrapClasses.zip (List.range wrapClasses.length)).length := by
    omega
  have hw0 : 0 < wrapClasses.length := by omega
  have hwlast : 2 ^ 16 < wrapClasses.length := by omega
  have hwc0 : wrapClasses.get ⟨0, hw0⟩ = ({0} : Finset Nat) := by
    rw [List.get_eq_getElem]
    show ((List.range (2 ^ 16)).map (fun i => ({i} : Finset Nat)) ++ [∅])[0]
      = ({0} : Finset Nat)
    rw [List.getElem_append_left (by rw [List.length_map, List.length_range]; omega)]
    rw [List.getElem_map, List.getElem_range]
  have hwce : wrapClasses.get ⟨2 ^ 16, hwlast⟩ = (∅ : Finset Nat) := by
    rw [List.get_eq_getElem]
    show ((List.range (2 ^ 16)).map (fun i => ({i} : Finset Nat)) ++ [∅])[2 ^ 16]
      = (∅ : Finset Nat)
    rw [List.getElem_append_right (by rw [List.length_map, List.length_range])]
    simp only [List.length_map, List.length_range, Nat.sub_self, List.getElem_cons_zero]
  refine ⟨hnd, ?_, ?_, by decide, by decide⟩
  · rw [mEq]
    refine List.mem_map.mpr ⟨(({0} : Finset Nat), 0), ?_, by norm_num⟩
    refine List.mem_iff_getElem.mpr ⟨0, hz0, ?_⟩
    rw [List.getElem_zip, List.getElem_range]
    rw [← List.get_eq_getElem wrapClasses ⟨0, hw0⟩, hwc0]
  · rw [mEq]
    refine List.mem_map.mpr ⟨((∅ : Finset Nat), 2 ^ 16), ?_, by norm_num⟩
    refine List.mem_iff_getElem.mpr ⟨2 ^ 16, hzlast, ?_⟩
    rw [List.getElem_zip, List.getElem_range]
    rw [← List.get_eq_getElem wrapClasses ⟨2 ^ 16, hwlast⟩, hwce]

end Fontations
